import Mathlib

/-!
Verification of the conversation-history store and query layer of
`crates/chat-cli/src/cli/history.rs` (amazon-q-developer-cli).

Rust strings are modelled as `List Char` (valid UTF-8 text is exactly a
sequence of Unicode scalar values, which is what Lean's `Char` is).  Byte
indices, which the Rust code uses for `len()` and slicing, are modelled
explicitly through `Char.utf8Size`; a byte slice at an index that is not a
character boundary panics in Rust, so the corresponding Lean operations
return `Option`, with `none` standing for a panic.

The opaque key-value substrate (`Database` of `crate::database`, whose code
is not part of the translated source) is modelled from the spec as an
association list of keys and raw values; its `get`/`set`/`enumerate`
operations are modelled from spec section 4.1.
-/

/-- Rust `String` / `&str`: a sequence of Unicode scalar values. -/
abbrev Str := List Char

/-- UTF-8 byte length of a string, i.e. Rust `str::len`. -/
def byteLen (s : Str) : Nat := (s.map Char.utf8Size).sum

/-- Rust byte slice `&s[..n]`: the characters making up the first `n` bytes.
Returns `none` (a panic) when `n` is not a character boundary or is out of
range. -/
def takePrefixBytes : Str → Nat → Option Str
  | _, 0 => some []
  | [], _ + 1 => none
  | c :: cs, n + 1 =>
    if c.utf8Size ≤ n + 1 then
      (takePrefixBytes cs (n + 1 - c.utf8Size)).map (fun t => c :: t)
    else none

/-- Rust byte slice `&s[n..]`: the characters after the first `n` bytes.
Returns `none` (a panic) when `n` is not a character boundary or is out of
range. -/
def dropPrefixBytes : Str → Nat → Option Str
  | s, 0 => some s
  | [], _ + 1 => none
  | c :: cs, n + 1 =>
    if c.utf8Size ≤ n + 1 then dropPrefixBytes cs (n + 1 - c.utf8Size)
    else none

/-- Rust `format!("{:<width$}", s)`: left-align and pad with spaces to
`width` characters (Rust's `Formatter::pad` counts characters). -/
def padRight (s : Str) (width : Nat) : Str :=
  s ++ List.replicate (width - s.length) ' '

/-- Rust `str::trim`: drop whitespace from both ends.  `Char.isWhitespace`
covers the ASCII whitespace that occurs in this development; the full
Unicode `White_Space` class of Rust is outside the model. -/
def rustTrim (s : Str) : Str :=
  ((s.dropWhile Char.isWhitespace).reverse.dropWhile Char.isWhitespace).reverse

/-- Rust `s.replace("\n", " ")`: the pattern is a single character, so the
replacement is a character-wise map. -/
def replaceNl (s : Str) : Str :=
  s.map (fun c => if c = '\n' then ' ' else c)

/-- Rust `str::to_lowercase`, character-wise.  `Char.toLower` is faithful on
ASCII, where all concrete inputs of this development live; Unicode
multi-character lowercase expansions are outside the model. -/
def toLowerStr (s : Str) : Str := s.map Char.toLower

/-- Rust `hay.contains(needle)`: substring containment. -/
def containsSub (needle : Str) : Str → Bool
  | [] => needle.isPrefixOf []
  | c :: cs => needle.isPrefixOf (c :: cs) || containsSub needle cs

/-- Byte-lexicographic order on strings (Rust `str::cmp`); comparing
code points character-wise coincides with comparing UTF-8 bytes. -/
def lexLe : Str → Str → Bool
  | [], _ => true
  | _ :: _, [] => false
  | a :: as, b :: bs => if a < b then true else if b < a then false else lexLe as bs

/-- Char index of the first occurrence of `needle` in `hay`
(Rust `str::find` reports the same position in bytes). -/
def findIdx? (needle : Str) : Str → Option Nat
  | [] => if needle.isPrefixOf [] then some 0 else none
  | c :: cs =>
    if needle.isPrefixOf (c :: cs) then some 0
    else (findIdx? needle cs).map (· + 1)

/-- Helper for `replaceAll`, structural on a fuel argument that starts at the
length of the string (each step consumes at least one character). -/
def replaceGo (pat rep : Str) : Nat → Str → Str
  | 0, s => s
  | _ + 1, [] => []
  | fuel + 1, c :: cs =>
    if pat ≠ [] ∧ pat.isPrefixOf (c :: cs) then
      rep ++ replaceGo pat rep fuel (cs.drop (pat.length - 1))
    else
      c :: replaceGo pat rep fuel cs

/-- Rust `s.replace(pat, rep)`: replace all non-overlapping occurrences left
to right; an empty pattern matches at every character boundary. -/
def replaceAll (s pat rep : Str) : Str :=
  if pat = [] then rep ++ s.flatMap (fun c => c :: rep)
  else replaceGo pat rep s.length s

/-! ## Data model (section 3 of the spec, `history.rs` lines 80-88) -/

/-- One turn of `state.history()`: only the user side's optional prompt
(`entry.user().prompt()`) is inspected by this module. -/
structure HistoryEntry where
  prompt : Option Str
  deriving DecidableEq

/-- The persisted conversation state (`ConversationState` of `crate::cli`):
the fields read by `history.rs` are `conversation_id()`, `history()` and
`transcript`. -/
structure ConversationState where
  conversation_id : Str
  history : List HistoryEntry
  transcript : List Str
  deriving DecidableEq

/-- Stage two of the stored value: the JSON string either parses as a
`ConversationState` (`serde_json::from_str`) or fails. -/
inductive EncodedString where
  | malformed : EncodedString
  | record : ConversationState → EncodedString
  deriving DecidableEq

/-- Stage one of the stored value: the substrate's JSON value either unwraps
into a string (`serde_json::from_value::<String>`) or fails. -/
inductive RawValue where
  | notString : RawValue
  | str : EncodedString → RawValue
  deriving DecidableEq

/-- The two-stage decode used by every scan in `history.rs`:
`serde_json::from_value::<String>` then `serde_json::from_str`. -/
def decodeValue : RawValue → Option ConversationState
  | .notString => none
  | .str .malformed => none
  | .str (.record st) => some st

/-- The wire form written back by `set_conversation_by_path`: the record
serialized to a JSON string, wrapped as a JSON value (spec section 3,
double-encoded storage value). -/
def encState (st : ConversationState) : RawValue :=
  .str (.record st)

/-- The substrate, enumerated as key-value pairs
(spec section 4.1 `enumerate_all`). -/
abbrev Store := List (Str × RawValue)

/-- Modelled from the spec: raw read of the substrate at a key (the
substrate is an opaque key-value store supporting get by key). -/
def getRaw (store : Store) (k : Str) : Option RawValue :=
  (store.find? (fun e => e.1 == k)).map (fun e => e.2)

/-- Whether the substrate holds an entry under key `k`. -/
def hasKey (store : Store) (k : Str) : Bool :=
  store.any (fun e => e.1 == k)

/-- Modelled from the spec: raw write to the substrate; `set` overwrites
unconditionally (spec section 4.1), keys stay unique. -/
def setRaw (store : Store) (k : Str) (v : RawValue) : Store :=
  if hasKey store k then
    store.map (fun e => if e.1 == k then (k, v) else e)
  else
    store ++ [(k, v)]

/-- Modelled from the spec: `Database::set_conversation_by_path` — encode the
record in the double-encoded wire form and store it under the path
(spec section 4.1 `set(path, record)`). -/
def setConvByPath (store : Store) (k : Str) (st : ConversationState) : Store :=
  setRaw store k (encState st)

/-- Modelled from the spec: `Database::get_conversation_by_path` — `none`
models a `DecodeError` propagated to the caller, `some none` a missing
entry, `some (some st)` a decodable live entry (spec section 4.1 `get`). -/
def getConvByPath (store : Store) (k : Str) : Option (Option ConversationState) :=
  match getRaw store k with
  | none => some none
  | some v =>
    match decodeValue v with
    | some st => some (some st)
    | none => none

/-! ## Presentation formatting (`history.rs` lines 392-434, 601-691) -/

/-- Translation of `truncate_string` (`history.rs` 392-398).  The fit test
uses the byte length, padding counts characters, and the ellipsis branch
byte-slices at `max_len.saturating_sub(3)`, which panics (`none`) when that
index is not a character boundary. -/
def truncate_string (s : Str) (maxLen : Nat) : Option Str :=
  if byteLen s ≤ maxLen then some (padRight s maxLen)
  else (takePrefixBytes s (maxLen - 3)).map (fun t => t ++ "...".data)

/-- Translation of `truncate_path` (`history.rs` 400-434).  The `HOME`
environment variable is the injected `home` argument; when the path starts
with it, Rust's `path.replace(&home, "~")` substitutes every occurrence.
Long paths keep their suffix, preferring to cut at a `/` boundary. -/
def truncate_path (home : Option Str) (path : Str) (maxLen : Nat) : Option Str :=
  let path2 :=
    match home with
    | some h => if h.isPrefixOf path then replaceAll path h ['~'] else path
    | none => path
  if byteLen path2 ≤ maxLen then some (padRight path2 maxLen)
  else
    let available := maxLen - 3
    if 0 < available then
      (dropPrefixBytes path2 (byteLen path2 - available)).map (fun suffix =>
        let truncated :=
          if suffix.contains '/' then suffix.dropWhile (fun c => c ≠ '/') else suffix
        "...".data ++ truncated)
    else some "...".data

/-- Translation of `extract_preview` (`history.rs` 601-618): first user
prompt trimmed with newlines collapsed, byte-truncated to 47 plus `...` when
longer than 50 bytes; fixed placeholders otherwise. -/
def extract_preview (state : ConversationState) : Option Str :=
  match state.history.head? with
  | some entry =>
    match entry.prompt with
    | some prompt =>
      let preview := replaceNl (rustTrim prompt)
      if 50 < byteLen preview then
        (takePrefixBytes preview 47).map (fun t => t ++ "...".data)
      else some preview
    | none => some "Tool use conversation".data
  | none => some "Empty conversation".data

/-- Translation of `conversation_contains_text` (`history.rs` 621-646):
case-insensitive containment in any transcript entry or any user prompt. -/
def conversation_contains_text (state : ConversationState) (query : Str) : Bool :=
  let queryLower := toLowerStr query
  state.transcript.any (fun entry => containsSub queryLower (toLowerStr entry)) ||
    state.history.any (fun entry =>
      match entry.prompt with
      | some p => containsSub queryLower (toLowerStr p)
      | none => false)

/-- Helper translating the context-window body shared by the two loops of
`extract_search_preview`: byte positions are computed against the lowercased
text but sliced out of the original, and the 47-byte cut can land inside a
character (`none` models the Rust panic). -/
def searchWindow (text : Str) (query : Str) : Option (Option Str) :=
  let textLower := toLowerStr text
  let queryLower := toLowerStr query
  match findIdx? queryLower textLower with
  | none => some none
  | some i =>
    let pos := byteLen (textLower.take i)
    let start := pos - 20
    let stop := min (pos + byteLen query + 20) (byteLen text)
    match dropPrefixBytes text start with
    | none => none
    | some tail =>
      match takePrefixBytes tail (stop - start) with
      | none => none
      | some context =>
        let cleaned := replaceNl (rustTrim context)
        if 50 < byteLen cleaned then
          match takePrefixBytes cleaned 47 with
          | none => none
          | some t => some (some ("...".data ++ t ++ "...".data))
        else some (some ("...".data ++ cleaned ++ "...".data))

/-- Helper: the first transcript entry of `extract_search_preview` whose
lowercased text contains the query, turned into a window. -/
def searchPreviewInTexts (texts : List Str) (query : Str) : Option (Option Str) :=
  match texts with
  | [] => some none
  | t :: ts =>
    match searchWindow t query with
    | none => none
    | some (some w) => some (some w)
    | some none => searchPreviewInTexts ts query

/-- Translation of `extract_search_preview` (`history.rs` 649-691): window
around the first match in the transcript, else in the user prompts, else the
plain `extract_preview` fallback. -/
def extract_search_preview (state : ConversationState) (query : Str) : Option Str :=
  match searchPreviewInTexts state.transcript query with
  | none => none
  | some (some w) => some w
  | some none =>
    match searchPreviewInTexts (state.history.filterMap (fun e => e.prompt)) query with
    | none => none
    | some (some w) => some w
    | some none => extract_preview state

/-! ## Resolver, backup and restore (`history.rs` 348-390, 557-598) -/

/-- Translation of `Database::get_conversation_by_id` (`history.rs`
558-583): scan all entries in enumeration order, skip entries failing either
decode stage, and return the first whose identifier equals the fragment or
has it as a prefix. -/
def get_conversation_by_id (store : Store) (id : Str) : Option (Str × ConversationState) :=
  match store with
  | [] => none
  | (path, value) :: rest =>
    match decodeValue value with
    | some state =>
      if state.conversation_id == id || id.isPrefixOf state.conversation_id then
        some (path, state)
      else get_conversation_by_id rest id
    | none => get_conversation_by_id rest id

/-- A second-precision UTC timestamp, the input to chrono's
`format("%Y%m%d_%H%M%S")` in `backup_conversation`. -/
structure Ts where
  y : Nat
  m : Nat
  d : Nat
  hh : Nat
  mi : Nat
  s : Nat
  deriving DecidableEq

/-- Field bounds under which the four- and two-digit zero-padded renderings
are exact (every real calendar timestamp satisfies them). -/
def Ts.Bounded (t : Ts) : Prop :=
  t.y ≤ 9999 ∧ t.m ≤ 99 ∧ t.d ≤ 99 ∧ t.hh ≤ 99 ∧ t.mi ≤ 99 ∧ t.s ≤ 99

/-- Two-digit zero-padded decimal, chrono's `%m`/`%d`/`%H`/`%M`/`%S`. -/
def pad2 (n : Nat) : Str :=
  [Nat.digitChar (n / 10 % 10), Nat.digitChar (n % 10)]

/-- Four-digit zero-padded decimal, chrono's `%Y` for calendar years. -/
def pad4 (n : Nat) : Str :=
  [Nat.digitChar (n / 1000 % 10), Nat.digitChar (n / 100 % 10),
   Nat.digitChar (n / 10 % 10), Nat.digitChar (n % 10)]

/-- chrono's `format("%Y%m%d_%H%M%S")` on a second-precision timestamp. -/
def formatTs (t : Ts) : Str :=
  pad4 t.y ++ pad2 t.m ++ pad2 t.d ++ ['_'] ++ pad2 t.hh ++ pad2 t.mi ++ pad2 t.s

/-- The derived backup key `<path>.backup.<timestamp>` of
`backup_conversation` (`history.rs` 591-592). -/
def backupKeyOf (path : Str) (ts : Ts) : Str :=
  path ++ ".backup.".data ++ formatTs ts

/-- Translation of `Database::backup_conversation` (`history.rs` 586-598):
write the record under the timestamped key via `set_conversation_by_path`
and return the key.  The wall-clock reading `Utc::now()` is the explicit
`ts` argument. -/
def backup_conversation (store : Store) (originalPath : Str)
    (state : ConversationState) (ts : Ts) : Str × Store :=
  let backupKey := backupKeyOf originalPath ts
  (backupKey, setConvByPath store backupKey state)

/-- Translation of `restore_conversation` (`history.rs` 348-390): resolve
the fragment; on a miss nothing changes; otherwise read the destination
(current directory) path, back an existing decodable conversation up first,
and set the destination to the resolved record.  `none` models the
propagated `DecodeError` when the destination entry exists but does not
decode.  The result carries the new store and the backup key surfaced to the
user, if one was created. -/
def restore_conversation (store : Store) (id : Str) (currentPath : Str)
    (ts : Ts) : Option (Store × Option Str) :=
  match get_conversation_by_id store id with
  | none => some (store, none)
  | some (_originalPath, state) =>
    match getConvByPath store currentPath with
    | none => none
    | some none => some (setConvByPath store currentPath state, none)
    | some (some existingState) =>
      let backed := backup_conversation store currentPath existingState ts
      some (setConvByPath backed.2 currentPath state, some backed.1)

/-! ## Batch queries: list and search (`history.rs` 439-555) -/

/-- The ephemeral `ConversationSummary` (`history.rs` 80-88).  The source
fills `created_at`/`updated_at` with the wall clock (`Utc::now()`, a
placeholder per the spec); that reading is the explicit `now` argument. -/
structure ConversationSummary where
  id : Str
  path : Str
  created_at : Nat
  updated_at : Nat
  preview : Str
  message_count : Nat
  deriving DecidableEq

/-- Summary construction shared by `list_conversations` and
`search_conversations` (`history.rs` 472-479 and 522-529), given the
already-extracted preview. -/
def mkSummary (now : Nat) (path : Str) (state : ConversationState)
    (preview : Str) : ConversationSummary :=
  { id := state.conversation_id
    path := path
    created_at := now
    updated_at := now
    preview := preview
    message_count := state.history.length }

/-- Stable insertion step: `x` goes in front of the first element it may
precede according to `leb`. -/
def insertSorted (leb : α → α → Bool) (x : α) : List α → List α
  | [] => [x]
  | y :: ys => if leb x y then x :: y :: ys else y :: insertSorted leb x ys

/-- Stable sort by a total comparator, as computed by Rust's
`slice::sort_by` (a stable sort is a unique function of the comparator, so
insertion sort is extensionally the Rust sort). -/
def sortBy (leb : α → α → Bool) (l : List α) : List α :=
  l.foldr (insertSorted leb) []

/-- Comparator of `history.rs` line 450, `b.0.cmp(&a.0)`: entries sorted by
path descending. -/
def entryDesc (a b : Str × RawValue) : Bool := lexLe b.1 a.1

/-- Comparator of `history.rs` line 552, `a.path.cmp(&b.path)`: summaries
sorted by path ascending. -/
def summaryAsc (a b : ConversationSummary) : Bool := lexLe a.path b.path

/-- Whether an entry passes the `list_conversations` path filter
(`history.rs` 454-458): no filter, or case-sensitive containment. -/
def passesPathFilter (pathFilter : Option Str) (path : Str) : Bool :=
  match pathFilter with
  | some f => containsSub f path
  | none => true

/-- Whether a decoded state passes the `list_conversations` contains filter
(`history.rs` 466-470). -/
def passesContainsFilter (containsFilter : Option Str)
    (state : ConversationState) : Bool :=
  match containsFilter with
  | some f => conversation_contains_text state f
  | none => true

/-- The `list_conversations` scan (`history.rs` 452-500): path filter, two
decode stages (failures skip the entry), contains filter, then push; after
each push the loop stops once `limit` results are accumulated — the limit
check at the end of the loop body is unreachable from any `continue`, so it
runs only after a push.  `none` models a panic inside `extract_preview`. -/
def listLoop (now limit : Nat) (pathFilter containsFilter : Option Str) :
    Store → List ConversationSummary → Option (List ConversationSummary)
  | [], acc => some acc
  | (path, value) :: rest, acc =>
    if passesPathFilter pathFilter path then
      match decodeValue value with
      | none => listLoop now limit pathFilter containsFilter rest acc
      | some state =>
        if passesContainsFilter containsFilter state then
          match extract_preview state with
          | none => none
          | some preview =>
            let acc2 := acc ++ [mkSummary now path state preview]
            if limit ≤ acc2.length then some acc2
            else listLoop now limit pathFilter containsFilter rest acc2
        else listLoop now limit pathFilter containsFilter rest acc
    else listLoop now limit pathFilter containsFilter rest acc

/-- Translation of `Database::list_conversations` (`history.rs` 439-503):
sort all entries by path descending, then scan with filters and limit. -/
def list_conversations (store : Store) (now limit : Nat)
    (pathFilter containsFilter : Option Str) : Option (List ConversationSummary) :=
  listLoop now limit pathFilter containsFilter (sortBy entryDesc store) []

/-- The `search_conversations` scan (`history.rs` 515-549): entries in
enumeration order, decode failures skip the limit check (`continue`), but
every successfully decoded entry reaches it, matching or not. -/
def searchLoop (now limit : Nat) (queryLower : Str) :
    Store → List ConversationSummary → Option (List ConversationSummary)
  | [], acc => some acc
  | (path, value) :: rest, acc =>
    match decodeValue value with
    | none => searchLoop now limit queryLower rest acc
    | some state =>
      if conversation_contains_text state queryLower then
        match extract_search_preview state queryLower with
        | none => none
        | some preview =>
          let acc2 := acc ++ [mkSummary now path state preview]
          if limit ≤ acc2.length then some acc2
          else searchLoop now limit queryLower rest acc2
      else
        if limit ≤ acc.length then some acc
        else searchLoop now limit queryLower rest acc

/-- Translation of `Database::search_conversations` (`history.rs` 506-555):
scan in enumeration order with the lowercased query, then sort the results
by path ascending. -/
def search_conversations (store : Store) (now : Nat) (query : Str)
    (limit : Nat) : Option (List ConversationSummary) :=
  match searchLoop now limit (toLowerStr query) store [] with
  | none => none
  | some results => some (sortBy summaryAsc results)

/-! ## Spec-side reference functions -/

/-- Whether a record's identifier matches a fragment in the sense of spec
section 4.3: equals the fragment exactly or has it as a prefix. -/
def idMatches (fragment : Str) (state : ConversationState) : Bool :=
  state.conversation_id == fragment || fragment.isPrefixOf state.conversation_id

/-- Stated from the spec's words (section 4.3, identifier resolution): the
first record in enumeration order whose identifier matches the fragment,
entries that fail to decode being skipped.  Used to compare
`get_conversation_by_id` against the spec. -/
def resolveSpecFirstMatch (fragment : Str) : Store → Option (Str × ConversationState)
  | [] => none
  | (path, value) :: rest =>
    match decodeValue value with
    | some state =>
      if idMatches fragment state then some (path, state)
      else resolveSpecFirstMatch fragment rest
    | none => resolveSpecFirstMatch fragment rest

/-- The first entry of the store that passes both decode stages, in
enumeration order. -/
def firstDecodable : Store → Option (Str × ConversationState)
  | [] => none
  | (path, value) :: rest =>
    match decodeValue value with
    | some state => some (path, state)
    | none => firstDecodable rest

/-- Whether an entry passes the `list_conversations` path filter, decodes,
and passes the contains filter — the entries the spec counts as matching. -/
def passesFilters (pathFilter containsFilter : Option Str)
    (e : Str × RawValue) : Bool :=
  passesPathFilter pathFilter e.1 &&
    (match decodeValue e.2 with
     | some state => passesContainsFilter containsFilter state
     | none => false)

/-- Number of store entries passing the filters and both decode stages. -/
def countMatching (pathFilter containsFilter : Option Str) (store : Store) : Nat :=
  store.countP (passesFilters pathFilter containsFilter)

/-! ## Concrete sample data used by witnesses and counterexamples -/

/-- Characters of a string literal. -/
def strOf (s : String) : Str := s.data

/-- Sample record bearing the identifier from spec section 8. -/
def sampleIdState : ConversationState :=
  { conversation_id := strOf "f18c31da-422d-43b9-b7b1-bb01fb7c772b"
    history := [⟨some (strOf "hi there")⟩]
    transcript := [strOf "> hi there", strOf "hello!"] }

/-- One-entry store holding `sampleIdState`. -/
def sampleIdStore : Store := [(strOf "/p/a", encState sampleIdState)]

/-- Two records whose identifiers share the prefix `f1`. -/
def ambStateA : ConversationState :=
  { conversation_id := strOf "f1aaa", history := [⟨some (strOf "first")⟩], transcript := [] }

/-- Second record with the shared prefix, stored after `ambStateA`. -/
def ambStateB : ConversationState :=
  { conversation_id := strOf "f1bbb", history := [⟨some (strOf "second")⟩], transcript := [] }

/-- Store with two records both matching the fragment `f1`. -/
def ambStore : Store :=
  [(strOf "/p/1", encState ambStateA), (strOf "/p/2", encState ambStateB)]

/-- The record living at the restore destination before the restore. -/
def destState : ConversationState :=
  { conversation_id := strOf "aaa", history := [⟨some (strOf "old")⟩], transcript := [] }

/-- The record the restore resolves and copies to the destination. -/
def srcState : ConversationState :=
  { conversation_id := strOf "ccc", history := [⟨some (strOf "src")⟩], transcript := [] }

/-- A fixed second-precision timestamp, 2024-01-01 00:00:00 UTC. -/
def ts0 : Ts := ⟨2024, 1, 1, 0, 0, 0⟩

/-- A later timestamp in the same minute. -/
def ts1 : Ts := ⟨2024, 1, 1, 0, 0, 1⟩

/-- Store for an ordinary conflicted restore: a live destination entry and a
source entry, no backup-key collision. -/
def restoreStore : Store :=
  [(strOf "/d", encState destState), (strOf "/s", encState srcState)]

/-- Store that already holds an entry under the very backup key a restore at
`ts0` derives for the destination `/d`. -/
def collisionStore : Store :=
  [(strOf "/d", encState destState),
   (backupKeyOf (strOf "/d") ts0, encState destState),
   (strOf "/s", encState srcState)]

/-- Ten distinct-path entries that all decode and pass empty filters. -/
def tenStore : Store :=
  [(strOf "/p0", encState ambStateA), (strOf "/p1", encState ambStateA),
   (strOf "/p2", encState ambStateA), (strOf "/p3", encState ambStateA),
   (strOf "/p4", encState ambStateA), (strOf "/p5", encState ambStateA),
   (strOf "/p6", encState ambStateA), (strOf "/p7", encState ambStateA),
   (strOf "/p8", encState ambStateA), (strOf "/p9", encState ambStateA)]

/-! ## General lemmas about the string model -/

/-- A string has byte length zero exactly when it is empty. -/
theorem byteLen_eq_zero {s : Str} : byteLen s = 0 ↔ s = [] := by
  cases s with
  | nil => simp [byteLen]
  | cons c cs =>
    simp only [byteLen, List.map_cons, List.sum_cons]
    constructor
    · intro h
      have := Char.utf8Size_pos c
      omega
    · intro h
      cases h

/-- Taking zero bytes always succeeds with the empty string. -/
theorem takePrefixBytes_zero (s : Str) : takePrefixBytes s 0 = some [] := by
  cases s <;> rfl

/-- The lexicographic comparator is reflexive. -/
theorem lexLe_refl (a : Str) : lexLe a a = true := by
  induction a with
  | nil => rfl
  | cons c cs ih => simp [lexLe, lt_irrefl, ih]

/-- The lexicographic comparator is total. -/
theorem lexLe_total (a b : Str) : lexLe a b = true ∨ lexLe b a = true := by
  induction a generalizing b with
  | nil => left; rfl
  | cons c cs ih =>
    cases b with
    | nil => right; rfl
    | cons d ds =>
      rcases lt_trichotomy c d with h | h | h
      · left; simp [lexLe, h]
      · subst h
        rcases ih ds with h2 | h2
        · left; simp [lexLe, lt_irrefl, h2]
        · right; simp [lexLe, lt_irrefl, h2]
      · right; simp [lexLe, h]

/-- The lexicographic comparator is transitive. -/
theorem lexLe_trans {a b c : Str} (h1 : lexLe a b = true) (h2 : lexLe b c = true) :
    lexLe a c = true := by
  induction a generalizing b c with
  | nil => rfl
  | cons x xs ih =>
    cases b with
    | nil => simp [lexLe] at h1
    | cons y ys =>
      cases c with
      | nil => simp [lexLe] at h2
      | cons z zs =>
        simp only [lexLe] at h1 h2 ⊢
        by_cases hxy : x < y
        · by_cases hyz : y < z
          · simp [lt_trans hxy hyz]
          · by_cases hzy : z < y
            · rw [if_neg hyz, if_pos hzy] at h2
              simp at h2
            · have : y = z := le_antisymm (not_lt.mp hzy) (not_lt.mp hyz)
              subst this
              simp [hxy]
        · by_cases hyx : y < x
          · rw [if_neg hxy, if_pos hyx] at h1
            simp at h1
          · have hxe : x = y := le_antisymm (not_lt.mp hyx) (not_lt.mp hxy)
            subst hxe
            rw [if_neg (lt_irrefl x), if_neg (lt_irrefl x)] at h1
            by_cases hxz : x < z
            · simp [hxz]
            · by_cases hzx : z < x
              · rw [if_neg hxz, if_pos hzx] at h2
                simp at h2
              · rw [if_neg hxz, if_neg hzx] at h2 ⊢
                exact ih h1 h2

/-! ## Lemmas about the stable sort -/

/-- Membership after an insertion step. -/
theorem mem_insertSorted {α : Type} (leb : α → α → Bool) (x a : α) (l : List α) :
    a ∈ insertSorted leb x l ↔ a = x ∨ a ∈ l := by
  induction l with
  | nil => simp [insertSorted]
  | cons y ys ih =>
    simp only [insertSorted]
    split
    · simp only [List.mem_cons]
    · simp only [List.mem_cons, ih]
      tauto

/-- An insertion step preserves sortedness, for a total transitive
comparator. -/
theorem pairwise_insertSorted {α : Type} {leb : α → α → Bool}
    (htot : ∀ a b, leb a b = true ∨ leb b a = true)
    (htr : ∀ a b c, leb a b = true → leb b c = true → leb a c = true)
    (x : α) {l : List α} (h : l.Pairwise (fun a b => leb a b = true)) :
    (insertSorted leb x l).Pairwise (fun a b => leb a b = true) := by
  induction l with
  | nil => simp [insertSorted]
  | cons y ys ih =>
    rw [List.pairwise_cons] at h
    obtain ⟨hy, hys⟩ := h
    simp only [insertSorted]
    split
    case isTrue hxy =>
      rw [List.pairwise_cons]
      refine ⟨?_, ?_⟩
      · intro b hb
        rcases List.mem_cons.mp hb with rfl | hb2
        · exact hxy
        · exact htr x y b hxy (hy b hb2)
      · rw [List.pairwise_cons]
        exact ⟨hy, hys⟩
    case isFalse hxy =>
      rw [List.pairwise_cons]
      refine ⟨?_, ih hys⟩
      intro b hb
      rcases (mem_insertSorted leb x b ys).mp hb with rfl | hb2
      · rcases htot b y with h3 | h3
        · exact absurd h3 hxy
        · exact h3
      · exact hy b hb2

/-- The sort output is sorted according to the comparator. -/
theorem sortBy_pairwise {α : Type} {leb : α → α → Bool}
    (htot : ∀ a b, leb a b = true ∨ leb b a = true)
    (htr : ∀ a b c, leb a b = true → leb b c = true → leb a c = true)
    (l : List α) : (sortBy leb l).Pairwise (fun a b => leb a b = true) := by
  induction l with
  | nil => simp [sortBy]
  | cons x xs ih =>
    show (insertSorted leb x (sortBy leb xs)).Pairwise _
    exact pairwise_insertSorted htot htr x ih

/-- An insertion step does not change how many elements satisfy `p`. -/
theorem countP_insertSorted {α : Type} (leb : α → α → Bool) (p : α → Bool)
    (x : α) (l : List α) :
    (insertSorted leb x l).countP p = (x :: l).countP p := by
  induction l with
  | nil => rfl
  | cons y ys ih =>
    simp only [insertSorted]
    split
    · rfl
    · simp only [List.countP_cons, ih]
      omega

/-- Sorting does not change how many elements satisfy `p`. -/
theorem sortBy_countP {α : Type} (leb : α → α → Bool) (p : α → Bool)
    (l : List α) : (sortBy leb l).countP p = l.countP p := by
  induction l with
  | nil => rfl
  | cons x xs ih =>
    show (insertSorted leb x (sortBy leb xs)).countP p = _
    rw [countP_insertSorted, List.countP_cons, List.countP_cons, ih]

/-- An element that may precede everything in the list is inserted at the
front. -/
theorem insertSorted_front {α : Type} {leb : α → α → Bool} (x : α)
    {l : List α} (h : ∀ z ∈ l, leb x z = true) :
    insertSorted leb x l = x :: l := by
  cases l with
  | nil => rfl
  | cons y ys => simp [insertSorted, h y (List.mem_cons_self y ys)]

/-- Filtering commutes with one insertion step into a sorted list. -/
theorem filter_insertSorted {α : Type} {leb : α → α → Bool}
    (htr : ∀ a b c, leb a b = true → leb b c = true → leb a c = true)
    (p : α → Bool) (x : α) {l : List α}
    (hs : l.Pairwise (fun a b => leb a b = true)) :
    (insertSorted leb x l).filter p =
      if p x then insertSorted leb x (l.filter p) else l.filter p := by
  induction l with
  | nil => cases hpx : p x <;> simp [insertSorted, List.filter, hpx]
  | cons y ys ih =>
    rw [List.pairwise_cons] at hs
    obtain ⟨hy, hys⟩ := hs
    simp only [insertSorted]
    split
    case isTrue hxy =>
      cases hpx : p x
      case true =>
        cases hpy : p y
        case true => simp [List.filter_cons, hpx, hpy, insertSorted, hxy]
        case false =>
          have hfront : insertSorted leb x (ys.filter p) = x :: ys.filter p := by
            apply insertSorted_front
            intro z hz
            exact htr x y z hxy (hy z (List.mem_of_mem_filter hz))
          simp [List.filter_cons, hpx, hpy, hfront]
      case false => simp [List.filter_cons, hpx]
    case isFalse hxy =>
      cases hpx : p x
      case true =>
        cases hpy : p y
        case true =>
          simp [List.filter_cons, hpx, hpy, insertSorted, hxy, ih hys]
        case false =>
          simp [List.filter_cons, hpx, hpy, ih hys]
      case false =>
        cases hpy : p y
        case true => simp [List.filter_cons, hpx, hpy, ih hys]
        case false => simp [List.filter_cons, hpx, hpy, ih hys]

/-- Filtering commutes with the stable sort. -/
theorem filter_sortBy {α : Type} {leb : α → α → Bool}
    (htot : ∀ a b, leb a b = true ∨ leb b a = true)
    (htr : ∀ a b c, leb a b = true → leb b c = true → leb a c = true)
    (p : α → Bool) (l : List α) :
    (sortBy leb l).filter p = sortBy leb (l.filter p) := by
  induction l with
  | nil => rfl
  | cons x xs ih =>
    show (insertSorted leb x (sortBy leb xs)).filter p = _
    rw [filter_insertSorted htr p x (sortBy_pairwise htot htr xs), ih, List.filter_cons]
    cases hpx : p x <;> simp [hpx, sortBy]

/-! ## Lemmas about the key-value substrate -/

/-- Unfolding of a raw read over a cons cell. -/
theorem getRaw_cons (e : Str × RawValue) (l : Store) (k : Str) :
    getRaw (e :: l) k = if e.1 == k then some e.2 else getRaw l k := by
  by_cases he : (e.1 == k) = true
  · unfold getRaw
    rw [List.find?_cons_of_pos l (show ((fun x : Str × RawValue => x.1 == k) e) = true from he),
      if_pos he]
    rfl
  · unfold getRaw
    rw [List.find?_cons_of_neg l (show ¬((fun x : Str × RawValue => x.1 == k) e) = true from he),
      if_neg he]

/-- Unfolding of the key test over a cons cell. -/
theorem hasKey_cons (e : Str × RawValue) (l : Store) (k : Str) :
    hasKey (e :: l) k = ((e.1 == k) || hasKey l k) := by
  simp [hasKey, List.any_cons]

/-- In-place overwrite: reading the overwritten key yields the new value. -/
theorem getRaw_mapSet_same (l : Store) (k : Str) (v : RawValue)
    (h : hasKey l k = true) :
    getRaw (l.map (fun e => if e.1 == k then (k, v) else e)) k = some v := by
  induction l with
  | nil => simp [hasKey] at h
  | cons e es ih =>
    by_cases he : (e.1 == k) = true
    · have hek : e.1 = k := by simpa using he
      simp [List.map_cons, hek, getRaw_cons]
    · have he2 : (e.1 == k) = false := by simpa using he
      rw [hasKey_cons] at h
      have hes : hasKey es k = true := by
        rcases Bool.or_eq_true_iff.mp h with h2 | h2
        · exact absurd h2 he
        · exact h2
      simp only [List.map_cons, if_neg he]
      rw [getRaw_cons, if_neg he]
      exact ih hes

/-- In-place overwrite: other keys read as before. -/
theorem getRaw_mapSet_ne (l : Store) (k k2 : Str) (v : RawValue)
    (hne : k2 ≠ k) :
    getRaw (l.map (fun e => if e.1 == k then (k, v) else e)) k2 = getRaw l k2 := by
  induction l with
  | nil => rfl
  | cons e es ih =>
    simp only [List.map_cons]
    by_cases he : (e.1 == k) = true
    · have hek : e.1 = k := by simpa using he
      have h1 : (k == k2) = false := by
        simp only [beq_eq_false_iff_ne, ne_eq]
        exact fun hc => hne hc.symm
      have h2 : (e.1 == k2) = false := by rw [hek]; exact h1
      rw [if_pos he, getRaw_cons, getRaw_cons]
      simp only [h1, h2, if_false, Bool.false_eq_true]
      exact ih
    · rw [if_neg he, getRaw_cons, getRaw_cons]
      by_cases hee : (e.1 == k2) = true
      · rw [if_pos hee, if_pos hee]
      · rw [if_neg hee, if_neg hee]
        exact ih

/-- Fresh append: reading the appended key yields the new value. -/
theorem getRaw_append_same (l : Store) (k : Str) (v : RawValue)
    (h : hasKey l k = false) : getRaw (l ++ [(k, v)]) k = some v := by
  induction l with
  | nil => simp [getRaw_cons]
  | cons e es ih =>
    simp only [hasKey_cons, Bool.or_eq_false_iff] at h
    obtain ⟨h1, h2⟩ := h
    rw [List.cons_append, getRaw_cons, if_neg (by simp [h1])]
    exact ih h2

/-- Fresh append: other keys read as before. -/
theorem getRaw_append_ne (l : Store) (k k2 : Str) (v : RawValue)
    (hne : k2 ≠ k) : getRaw (l ++ [(k, v)]) k2 = getRaw l k2 := by
  induction l with
  | nil =>
    have h1 : (k == k2) = false := by
      simp only [beq_eq_false_iff_ne, ne_eq]
      exact fun hc => hne hc.symm
    simp [getRaw_cons, h1, getRaw]
  | cons e es ih =>
    rw [List.cons_append, getRaw_cons, getRaw_cons]
    by_cases hee : (e.1 == k2) = true
    · rw [if_pos hee, if_pos hee]
    · rw [if_neg hee, if_neg hee]
      exact ih

/-- Reading back the key just written yields the new value. -/
theorem getRaw_setRaw_same (store : Store) (k : Str) (v : RawValue) :
    getRaw (setRaw store k v) k = some v := by
  unfold setRaw
  by_cases h : hasKey store k = true
  · rw [if_pos h]
    exact getRaw_mapSet_same store k v h
  · rw [if_neg h]
    exact getRaw_append_same store k v (by simpa using h)

/-- Writing one key does not disturb reads of another. -/
theorem getRaw_setRaw_ne (store : Store) (k k2 : Str) (v : RawValue)
    (hne : k2 ≠ k) : getRaw (setRaw store k v) k2 = getRaw store k2 := by
  unfold setRaw
  by_cases h : hasKey store k = true
  · rw [if_pos h]
    exact getRaw_mapSet_ne store k k2 v hne
  · rw [if_neg h]
    exact getRaw_append_ne store k k2 v hne

/-- A key is present exactly when a raw read succeeds. -/
theorem hasKey_eq_isSome (store : Store) (k : Str) :
    hasKey store k = (getRaw store k).isSome := by
  induction store with
  | nil => rfl
  | cons e es ih =>
    by_cases he : (e.1 == k) = true
    · simp [hasKey_cons, getRaw_cons, he]
    · have he2 : (e.1 == k) = false := by simpa using he
      simp [hasKey_cons, getRaw_cons, he2, ih]

/-- Writing one key does not change whether another key is present. -/
theorem hasKey_setRaw_ne (store : Store) (k k2 : Str) (v : RawValue)
    (hne : k2 ≠ k) : hasKey (setRaw store k v) k2 = hasKey store k2 := by
  rw [hasKey_eq_isSome, hasKey_eq_isSome, getRaw_setRaw_ne store k k2 v hne]

/-- Writing an absent key appends a single new entry. -/
theorem setRaw_of_fresh (store : Store) (k : Str) (v : RawValue)
    (h : hasKey store k = false) : setRaw store k v = store ++ [(k, v)] := by
  simp [setRaw, h]

/-- Overwriting a present key keeps the number of entries. -/
theorem length_setRaw_of_hasKey (store : Store) (k : Str) (v : RawValue)
    (h : hasKey store k = true) : (setRaw store k v).length = store.length := by
  simp [setRaw, h]

/-- Writing an absent key grows the store by exactly one entry. -/
theorem length_setRaw_of_fresh (store : Store) (k : Str) (v : RawValue)
    (h : hasKey store k = false) : (setRaw store k v).length = store.length + 1 := by
  simp [setRaw_of_fresh store k v h]

/-! ## Injectivity of the backup-key timestamp format -/

/-- Decimal digits render injectively. -/
theorem digitChar_inj : ∀ a < 10, ∀ b < 10, Nat.digitChar a = Nat.digitChar b → a = b := by
  decide

/-- Equal rendered digits force equal residues mod ten. -/
theorem digitChar_mod_inj {a b : Nat}
    (h : Nat.digitChar (a % 10) = Nat.digitChar (b % 10)) : a % 10 = b % 10 :=
  digitChar_inj _ (Nat.mod_lt _ (by norm_num)) _ (Nat.mod_lt _ (by norm_num)) h

/-- The two-digit rendering is injective on values up to 99. -/
theorem pad2_inj {m n : Nat} (hm : m ≤ 99) (hn : n ≤ 99) (h : pad2 m = pad2 n) : m = n := by
  simp only [pad2, List.cons.injEq, and_true] at h
  obtain ⟨h1, h2⟩ := h
  have e1 := digitChar_mod_inj h1
  have e2 := digitChar_mod_inj h2
  omega

/-- The four-digit rendering is injective on values up to 9999. -/
theorem pad4_inj {m n : Nat} (hm : m ≤ 9999) (hn : n ≤ 9999) (h : pad4 m = pad4 n) : m = n := by
  simp only [pad4, List.cons.injEq, and_true] at h
  obtain ⟨h1, h2, h3, h4⟩ := h
  have e1 := digitChar_mod_inj h1
  have e2 := digitChar_mod_inj h2
  have e3 := digitChar_mod_inj h3
  have e4 := digitChar_mod_inj h4
  omega

/-- The timestamp has a fixed rendered width. -/
theorem formatTs_length (t : Ts) : (formatTs t).length = 15 := by
  simp [formatTs, pad4, pad2]

/-- The compact timestamp format is injective on bounded timestamps: two
distinct seconds never share a rendering. -/
theorem formatTs_inj {t1 t2 : Ts} (hb1 : t1.Bounded) (hb2 : t2.Bounded)
    (h : formatTs t1 = formatTs t2) : t1 = t2 := by
  obtain ⟨y1, m1, d1, g1, i1, s1⟩ := t1
  obtain ⟨y2, m2, d2, g2, i2, s2⟩ := t2
  dsimp only [Ts.Bounded] at hb1 hb2
  obtain ⟨hy1, hm1, hd1, hg1, hi1, hs1⟩ := hb1
  obtain ⟨hy2, hm2, hd2, hg2, hi2, hs2⟩ := hb2
  dsimp only [formatTs, pad4, pad2] at h
  simp only [List.cons_append, List.nil_append, List.cons.injEq, and_true, true_and] at h
  obtain ⟨e1, e2, e3, e4, e5, e6, e7, e8, e9, e10, e11, e12, e13, e14⟩ := h
  have f1 : y1 = y2 := by
    have d1e := digitChar_mod_inj e1
    have d2e := digitChar_mod_inj e2
    have d3e := digitChar_mod_inj e3
    have d4e := digitChar_mod_inj e4
    omega
  have f2 : m1 = m2 := by
    have d1e := digitChar_mod_inj e5
    have d2e := digitChar_mod_inj e6
    omega
  have f3 : d1 = d2 := by
    have d1e := digitChar_mod_inj e7
    have d2e := digitChar_mod_inj e8
    omega
  have f4 : g1 = g2 := by
    have d1e := digitChar_mod_inj e9
    have d2e := digitChar_mod_inj e10
    omega
  have f5 : i1 = i2 := by
    have d1e := digitChar_mod_inj e11
    have d2e := digitChar_mod_inj e12
    omega
  have f6 : s1 = s2 := by
    have d1e := digitChar_mod_inj e13
    have d2e := digitChar_mod_inj e14
    omega
  simp [Ts.mk.injEq, f1, f2, f3, f4, f5, f6]

/-- The derived backup key is never the live path itself. -/
theorem backupKeyOf_ne_path (p : Str) (t : Ts) : backupKeyOf p t ≠ p := by
  intro h
  have hlen := congrArg List.length h
  simp only [backupKeyOf, List.length_append, formatTs_length] at hlen
  have h8 : (".backup.".data : Str).length = 8 := by decide
  rw [h8] at hlen
  omega

/-- Two backups of the same path at distinct bounded timestamps derive
distinct keys. -/
theorem backupKeyOf_inj_ts {p : Str} {t1 t2 : Ts} (hb1 : t1.Bounded) (hb2 : t2.Bounded)
    (h : backupKeyOf p t1 = backupKeyOf p t2) : t1 = t2 := by
  apply formatTs_inj hb1 hb2
  have h2 : p ++ (".backup.".data ++ formatTs t1) = p ++ (".backup.".data ++ formatTs t2) := by
    simpa [backupKeyOf, List.append_assoc] using h
  exact List.append_cancel_left (List.append_cancel_left h2)

/-! ## Lemmas about the batch scans -/

/-- Length of the list scan's result: the scan accumulates matching entries
until the limit check (which runs only after a push) stops it, so on
success the final length is the number of matching entries capped by
`max limit (acc.length + 1)`. -/
theorem listLoop_length (now limit : Nat) (pf cf : Option Str) :
    ∀ (entries : Store) (acc res : List ConversationSummary),
    listLoop now limit pf cf entries acc = some res →
    res.length = min (acc.length + countMatching pf cf entries)
      (max limit (acc.length + 1)) := by
  intro entries
  induction entries with
  | nil =>
    intro acc res h
    simp only [listLoop, Option.some.injEq] at h
    subst h
    simp only [countMatching, List.countP_nil]
    omega
  | cons e es ih =>
    intro acc res h
    obtain ⟨path, value⟩ := e
    have hcount : countMatching pf cf ((path, value) :: es) =
        countMatching pf cf es + (if passesFilters pf cf (path, value) then 1 else 0) :=
      List.countP_cons _ _ _
    simp only [listLoop] at h
    by_cases hpf : passesPathFilter pf path = true
    · rw [if_pos hpf] at h
      cases hdec : decodeValue value with
      | none =>
        simp only [hdec] at h
        rw [ih acc res h, hcount]
        simp [passesFilters, hdec]
      | some st =>
        simp only [hdec] at h
        by_cases hcf : passesContainsFilter cf st = true
        · rw [if_pos hcf] at h
          cases hprev : extract_preview st with
          | none => simp [hprev] at h
          | some pv =>
            simp only [hprev] at h
            have hflt : passesFilters pf cf (path, value) = true := by
              simp [passesFilters, hpf, hdec, hcf]
            by_cases hlim : limit ≤ (acc ++ [mkSummary now path st pv]).length
            · rw [if_pos hlim] at h
              have hres : res = acc ++ [mkSummary now path st pv] := by
                injection h with h2
                exact h2.symm
              subst hres
              simp only [List.length_append, List.length_singleton] at hlim ⊢
              rw [hcount, hflt]
              simp only [if_true]
              omega
            · rw [if_neg hlim] at h
              have h2 := ih (acc ++ [mkSummary now path st pv]) res h
              simp only [List.length_append, List.length_singleton] at h2 hlim
              rw [hcount, hflt]
              simp only [if_true]
              omega
        · rw [if_neg hcf] at h
          rw [ih acc res h, hcount]
          have hflt : passesFilters pf cf (path, value) = false := by
            simp [passesFilters, hdec, hcf]
          rw [hflt]
          simp
    · rw [if_neg hpf] at h
      rw [ih acc res h, hcount]
      have hflt : passesFilters pf cf (path, value) = false := by
        simp only [passesFilters, Bool.and_eq_false_iff]
        left
        simpa using hpf
      rw [hflt]
      simp

/-- The descending entry comparator is total. -/
theorem entryDesc_total (a b : Str × RawValue) :
    entryDesc a b = true ∨ entryDesc b a = true :=
  (lexLe_total b.1 a.1).elim Or.inl Or.inr

/-- The descending entry comparator is transitive. -/
theorem entryDesc_trans (a b c : Str × RawValue)
    (h1 : entryDesc a b = true) (h2 : entryDesc b c = true) :
    entryDesc a c = true :=
  lexLe_trans h2 h1

/-- The ascending summary comparator is total. -/
theorem summaryAsc_total (a b : ConversationSummary) :
    summaryAsc a b = true ∨ summaryAsc b a = true :=
  (lexLe_total a.path b.path).elim Or.inl Or.inr

/-- The ascending summary comparator is transitive. -/
theorem summaryAsc_trans (a b c : ConversationSummary)
    (h1 : summaryAsc a b = true) (h2 : summaryAsc b c = true) :
    summaryAsc a c = true :=
  lexLe_trans h1 h2

/-- The list scan emits summaries whose paths inherit the descending order
of the scanned entries. -/
theorem listLoop_sorted (now limit : Nat) (pf cf : Option Str) :
    ∀ (entries : Store) (acc res : List ConversationSummary),
    entries.Pairwise (fun a b => lexLe b.1 a.1 = true) →
    acc.Pairwise (fun a b => lexLe b.path a.path = true) →
    (∀ s ∈ acc, ∀ e2 ∈ entries, lexLe e2.1 s.path = true) →
    listLoop now limit pf cf entries acc = some res →
    res.Pairwise (fun a b => lexLe b.path a.path = true) := by
  intro entries
  induction entries with
  | nil =>
    intro acc res _ hacc _ h
    simp only [listLoop, Option.some.injEq] at h
    subst h
    exact hacc
  | cons e es ih =>
    intro acc res hent hacc hcross h
    obtain ⟨path, value⟩ := e
    rw [List.pairwise_cons] at hent
    obtain ⟨hhead, hes⟩ := hent
    have hcross2 : ∀ s ∈ acc, ∀ e2 ∈ es, lexLe e2.1 s.path = true := by
      intro s hs e2 he2
      exact hcross s hs e2 (List.mem_cons_of_mem _ he2)
    simp only [listLoop] at h
    by_cases hpf : passesPathFilter pf path = true
    · rw [if_pos hpf] at h
      cases hdec : decodeValue value with
      | none =>
        simp only [hdec] at h
        exact ih acc res hes hacc hcross2 h
      | some st =>
        simp only [hdec] at h
        by_cases hcf : passesContainsFilter cf st = true
        · rw [if_pos hcf] at h
          cases hprev : extract_preview st with
          | none => simp [hprev] at h
          | some pv =>
            simp only [hprev] at h
            have hacc2 : (acc ++ [mkSummary now path st pv]).Pairwise
                (fun a b => lexLe b.path a.path = true) := by
              rw [List.pairwise_append]
              refine ⟨hacc, by simp, ?_⟩
              intro a ha b hb
              rw [List.mem_singleton] at hb
              subst hb
              exact hcross a ha (path, value) (List.mem_cons_self _ _)
            by_cases hlim : limit ≤ (acc ++ [mkSummary now path st pv]).length
            · rw [if_pos hlim] at h
              have hres : res = acc ++ [mkSummary now path st pv] := by
                injection h with h2
                exact h2.symm
              subst hres
              exact hacc2
            · rw [if_neg hlim] at h
              apply ih _ res hes hacc2 _ h
              intro s hs e2 he2
              rcases List.mem_append.mp hs with hs2 | hs2
              · exact hcross s hs2 e2 (List.mem_cons_of_mem _ he2)
              · rw [List.mem_singleton] at hs2
                subst hs2
                exact hhead e2 he2
        · rw [if_neg hcf] at h
          exact ih acc res hes hacc hcross2 h
    · rw [if_neg hpf] at h
      exact ih acc res hes hacc hcross2 h

/-- Entries that fail to decode are invisible to the list scan: they are
skipped, do not touch the accumulator and do not reach the limit check. -/
theorem listLoop_filter_decodable (now limit : Nat) (pf cf : Option Str) :
    ∀ (entries : Store) (acc : List ConversationSummary),
    listLoop now limit pf cf entries acc =
      listLoop now limit pf cf (entries.filter (fun e => (decodeValue e.2).isSome)) acc := by
  intro entries
  induction entries with
  | nil => intro acc; rfl
  | cons e es ih =>
    intro acc
    obtain ⟨path, value⟩ := e
    cases hdec : decodeValue value with
    | none =>
      rw [List.filter_cons_of_neg (by simp [hdec])]
      have hL : listLoop now limit pf cf ((path, value) :: es) acc =
          listLoop now limit pf cf es acc := by
        simp only [listLoop, hdec]
        by_cases hpf : passesPathFilter pf path = true
        · rw [if_pos hpf]
        · rw [if_neg hpf]
      rw [hL]
      exact ih acc
    | some st =>
      rw [List.filter_cons_of_pos (by simp [hdec])]
      simp only [listLoop, hdec]
      by_cases hpf : passesPathFilter pf path = true
      · rw [if_pos hpf, if_pos hpf]
        by_cases hcf : passesContainsFilter cf st = true
        · rw [if_pos hcf, if_pos hcf]
          cases hprev : extract_preview st with
          | none => rfl
          | some pv =>
            simp only []
            by_cases hlim : limit ≤ (acc ++ [mkSummary now path st pv]).length
            · rw [if_pos hlim, if_pos hlim]
            · rw [if_neg hlim, if_neg hlim]
              exact ih _
        · rw [if_neg hcf, if_neg hcf]
          exact ih acc
      · rw [if_neg hpf, if_neg hpf]
        exact ih acc

/-- Entries that fail to decode are invisible to the search scan. -/
theorem searchLoop_filter_decodable (now limit : Nat) (q : Str) :
    ∀ (entries : Store) (acc : List ConversationSummary),
    searchLoop now limit q entries acc =
      searchLoop now limit q (entries.filter (fun e => (decodeValue e.2).isSome)) acc := by
  intro entries
  induction entries with
  | nil => intro acc; rfl
  | cons e es ih =>
    intro acc
    obtain ⟨path, value⟩ := e
    cases hdec : decodeValue value with
    | none =>
      rw [List.filter_cons_of_neg (by simp [hdec])]
      have hL : searchLoop now limit q ((path, value) :: es) acc =
          searchLoop now limit q es acc := by
        simp only [searchLoop, hdec]
      rw [hL]
      exact ih acc
    | some st =>
      rw [List.filter_cons_of_pos (by simp [hdec])]
      simp only [searchLoop, hdec]
      by_cases hct : conversation_contains_text st q = true
      · rw [if_pos hct, if_pos hct]
        cases hprev : extract_search_preview st q with
        | none => rfl
        | some pv =>
          simp only []
          by_cases hlim : limit ≤ (acc ++ [mkSummary now path st pv]).length
          · rw [if_pos hlim, if_pos hlim]
          · rw [if_neg hlim, if_neg hlim]
            exact ih _
      · rw [if_neg hct, if_neg hct]
        by_cases hlim : limit ≤ acc.length
        · rw [if_pos hlim, if_pos hlim]
        · rw [if_neg hlim, if_neg hlim]
          exact ih acc

/-! ## Lemmas about replacement, truncation and resolution -/

/-- With no occurrence of the pattern, the replace scan copies its input. -/
theorem replaceGo_of_not_contains (pat rep : Str) :
    ∀ (fuel : Nat) (s : Str), s.length ≤ fuel → containsSub pat s = false →
    replaceGo pat rep fuel s = s := by
  intro fuel
  induction fuel with
  | zero =>
    intro s hlen _
    have hs : s = [] := List.length_eq_zero.mp (Nat.le_zero.mp hlen)
    subst hs
    rfl
  | succ fuel ih =>
    intro s hlen hnc
    cases s with
    | nil => rfl
    | cons c cs =>
      simp only [containsSub, Bool.or_eq_false_iff] at hnc
      obtain ⟨h1, h2⟩ := hnc
      have hcond : ¬(pat ≠ [] ∧ pat.isPrefixOf (c :: cs) = true) := by
        intro hcon
        rw [h1] at hcon
        exact Bool.false_ne_true hcon.2
      simp only [replaceGo]
      rw [if_neg hcond]
      have hlen2 : cs.length ≤ fuel := by
        simp only [List.length_cons] at hlen
        omega
      rw [ih cs hlen2 h2]

/-- Replacing a pattern that occurs exactly once, as the leading prefix,
rewrites just that prefix and copies the remainder. -/
theorem replaceAll_prefix_only (pat rest rep : Str) (hne : pat ≠ [])
    (hnc : containsSub pat rest = false) :
    replaceAll (pat ++ rest) pat rep = rep ++ rest := by
  cases pat with
  | nil => exact absurd rfl hne
  | cons c ps =>
    unfold replaceAll
    rw [if_neg hne]
    have hlen : ((c :: ps) ++ rest).length = (ps.length + rest.length) + 1 := by
      simp [List.length_append]
    rw [hlen]
    simp only [List.cons_append, replaceGo, List.append_eq]
    have hcond : (c :: ps) ≠ [] ∧ (c :: ps).isPrefixOf (c :: (ps ++ rest)) = true := by
      refine ⟨hne, ?_⟩
      rw [List.isPrefixOf_iff_prefix]
      exact List.prefix_append (c :: ps) rest
    rw [if_pos hcond]
    have hdrop : List.drop ((c :: ps).length - 1) (ps ++ rest) = rest := by
      simp only [List.length_cons, Nat.add_sub_cancel]
      exact List.drop_left ps rest
    rw [hdrop, replaceGo_of_not_contains (c :: ps) rep _ rest (by omega) hnc]

/-- A nonempty string has positive byte length. -/
theorem byteLen_pos {s : Str} (h : s ≠ []) : 0 < byteLen s := by
  rcases Nat.eq_zero_or_pos (byteLen s) with h0 | h0
  · exact absurd (byteLen_eq_zero.mp h0) h
  · exact h0

/-- A store with a decodable entry has a first decodable entry. -/
theorem firstDecodable_isSome :
    ∀ store : Store, (∃ e ∈ store, (decodeValue e.2).isSome = true) →
    (firstDecodable store).isSome = true := by
  intro store
  induction store with
  | nil =>
    rintro ⟨e, he, _⟩
    cases he
  | cons e es ih =>
    rintro ⟨f, hf, hdec⟩
    obtain ⟨path, value⟩ := e
    cases hd : decodeValue value with
    | some st => simp [firstDecodable, hd]
    | none =>
      simp only [firstDecodable, hd]
      apply ih
      rcases List.mem_cons.mp hf with rfl | hf2
      · simp [hd] at hdec
      · exact ⟨f, hf2, hdec⟩

/-- The resolver agrees with the spec's description: first record in
enumeration order whose identifier matches, undecodable entries skipped. -/
theorem get_conversation_by_id_eq_spec (frag : Str) :
    ∀ store : Store, get_conversation_by_id store frag = resolveSpecFirstMatch frag store := by
  intro store
  induction store with
  | nil => rfl
  | cons e es ih =>
    obtain ⟨path, value⟩ := e
    cases hd : decodeValue value with
    | none => simp [get_conversation_by_id, resolveSpecFirstMatch, hd, ih]
    | some st =>
      simp only [get_conversation_by_id, resolveSpecFirstMatch, hd, idMatches]
      by_cases hm : (st.conversation_id == frag || frag.isPrefixOf st.conversation_id) = true
      · rw [if_pos hm, if_pos hm]
      · rw [if_neg hm, if_neg hm]
        exact ih

/-- Resolving the empty fragment returns the first decodable entry. -/
theorem get_conversation_by_id_empty :
    ∀ store : Store, get_conversation_by_id store [] = firstDecodable store := by
  intro store
  induction store with
  | nil => rfl
  | cons e es ih =>
    obtain ⟨path, value⟩ := e
    cases hd : decodeValue value with
    | none => simp [get_conversation_by_id, firstDecodable, hd, ih]
    | some st =>
      simp only [get_conversation_by_id, firstDecodable, hd]
      rw [if_pos]
      simp [List.isPrefixOf]

/-! ## Claim theorems -/

/-- C7 counterexample: at the empty string and width 0 the padding branch
applies and `truncate_string` returns the empty string, not the ellipsis
the claim demands "regardless of s". -/
theorem c7_truncation_degenerate_counterexample :
    truncate_string [] 0 = some [] ∧ some ([] : Str) ≠ some (strOf "...") := by
  constructor
  · rfl
  · decide

/-- C7 (amended): degenerate truncation widths on strings that do not fit.
`truncate_string s 0` is exactly the ellipsis for every nonempty `s`, and
`truncate_string s 3` is exactly the ellipsis for every `s` of byte length
above three; a string that fits within the width is padded instead (at
width 0 only the empty string fits and yields the empty string). -/
theorem c7_truncation_degenerate (s : Str) :
    (s ≠ [] → truncate_string s 0 = some (strOf "...")) ∧
    (3 < byteLen s → truncate_string s 3 = some (strOf "...")) := by
  constructor
  · intro hne
    have h0 : ¬ byteLen s ≤ 0 := by
      have := byteLen_pos hne
      omega
    unfold truncate_string
    rw [if_neg h0]
    simp [takePrefixBytes_zero, strOf]
  · intro h3
    have h0 : ¬ byteLen s ≤ 3 := by omega
    unfold truncate_string
    rw [if_neg h0]
    simp [takePrefixBytes_zero, strOf]

/-- C7 witness: the amended degenerate widths evaluated at `"hello"`. -/
theorem c7_truncation_degenerate_witness :
    truncate_string (strOf "hello") 0 = some (strOf "...") ∧
    truncate_string (strOf "hello") 3 = some (strOf "...") :=
  ⟨(c7_truncation_degenerate (strOf "hello")).1 (by decide),
   (c7_truncation_degenerate (strOf "hello")).2 (by decide)⟩

/-- C8: the truncation helpers are not Unicode-safe total functions.  At
the five-character string `ééééé` (each character two UTF-8 bytes) and
width 4, `truncate_string` byte-slices at index 1 — inside the first
character — which panics in Rust; in this model the slice returns `none`
instead of a result, contradicting the claimed totality. -/
theorem c8_truncation_not_unicode_safe :
    truncate_string (strOf "ééééé") 4 = none := by decide

/-- C9 counterexample: the home substitution is `str::replace` of every
occurrence, not only the prefix — with home `/h` and path `/h/h`, the code
renders `~~` (padded), while a prefix-only substitution would leave the
remainder `/h` unchanged and render `~/h` (padded). -/
theorem c9_home_substitution_counterexample :
    truncate_path (some (strOf "/h")) (strOf "/h/h") 5 = some (strOf "~~   ") ∧
    strOf "~~   " ≠ strOf "~/h  " := by
  constructor
  · decide
  · decide

/-- C9 (amended): when the path starts with the home directory, every
occurrence of the home string is replaced by `~`; in particular when the
home string does not reoccur in the remainder, the result is the ordinary
fit/truncate rule applied to `~` followed by the unchanged remainder, and
the spec's width-20 example renders as stated. -/
theorem c9_home_substitution (h rest : Str) (w : Nat) (hne : h ≠ [])
    (hnc : containsSub h rest = false) :
    truncate_path (some h) (h ++ rest) w = truncate_path none ('~' :: rest) w ∧
    truncate_path (some (strOf "/home/testuser")) (strOf "/home/testuser/project") 20 =
      some (strOf "~/project           ") := by
  constructor
  · have hpre : h.isPrefixOf (h ++ rest) = true := by
      rw [List.isPrefixOf_iff_prefix]
      exact List.prefix_append h rest
    simp only [truncate_path]
    rw [if_pos hpre, replaceAll_prefix_only h rest ['~'] hne hnc]
    simp only [List.cons_append, List.nil_append]
  · decide

/-- C9 witness: the amended substitution rule evaluated at the spec's home
directory and a remainder in which it does not reoccur. -/
theorem c9_home_substitution_witness :
    truncate_path (some (strOf "/home/testuser"))
        (strOf "/home/testuser" ++ strOf "/project") 20 =
      truncate_path none ('~' :: strOf "/project") 20 :=
  (c9_home_substitution (strOf "/home/testuser") (strOf "/project") 20
    (by decide) (by decide)).1

/-- C4: partial-identifier resolution scans entries in enumeration order
and returns the first record whose identifier equals the fragment or has it
as a prefix (the spec-side `resolveSpecFirstMatch`); no error is raised on
multiple matches — the first enumerated record wins — and the spec's
concrete fragments of `f18c31da-422d-43b9-b7b1-bb01fb7c772b` resolve as
stated while `g` resolves to none. -/
theorem c4_partial_id_resolution :
    (∀ (store : Store) (frag : Str),
      get_conversation_by_id store frag = resolveSpecFirstMatch frag store) ∧
    get_conversation_by_id sampleIdStore (strOf "f18c31da") =
      some (strOf "/p/a", sampleIdState) ∧
    get_conversation_by_id sampleIdStore (strOf "f18c") =
      some (strOf "/p/a", sampleIdState) ∧
    get_conversation_by_id sampleIdStore (strOf "f") =
      some (strOf "/p/a", sampleIdState) ∧
    get_conversation_by_id sampleIdStore (strOf "g") = none ∧
    get_conversation_by_id ambStore (strOf "f1") = some (strOf "/p/1", ambStateA) := by
  refine ⟨fun store frag => get_conversation_by_id_eq_spec frag store, ?_, ?_, ?_, ?_, ?_⟩
  · decide
  · decide
  · decide
  · decide
  · decide

/-- C10: the empty fragment is a prefix of every identifier, so on a store
holding at least one decodable entry, resolving `""` returns the first
decodable entry in enumeration order and never a not-found result. -/
theorem c10_empty_fragment (store : Store)
    (h : ∃ e ∈ store, (decodeValue e.2).isSome = true) :
    get_conversation_by_id store [] = firstDecodable store ∧
    (get_conversation_by_id store []).isSome = true := by
  refine ⟨get_conversation_by_id_empty store, ?_⟩
  rw [get_conversation_by_id_empty store]
  exact firstDecodable_isSome store h

/-- C10 witness: empty-fragment resolution on the one-entry sample store. -/
theorem c10_empty_fragment_witness :
    get_conversation_by_id sampleIdStore [] = firstDecodable sampleIdStore ∧
    (get_conversation_by_id sampleIdStore []).isSome = true :=
  c10_empty_fragment sampleIdStore
    ⟨(strOf "/p/a", encState sampleIdState), by decide, by decide⟩

/-- C2 counterexample: two successive backups of the same path within the
same second derive the identical key, so the second backup overwrites the
first — the write is not non-clobbering against every existing key. -/
theorem c2_backup_counterexample :
    (backup_conversation (backup_conversation restoreStore (strOf "/d") destState ts0).2
        (strOf "/d") srcState ts0).1 =
      (backup_conversation restoreStore (strOf "/d") destState ts0).1 ∧
    getRaw (backup_conversation (backup_conversation restoreStore (strOf "/d") destState ts0).2
        (strOf "/d") srcState ts0).2
        (backup_conversation restoreStore (strOf "/d") destState ts0).1 =
      some (encState srcState) ∧
    (backup_conversation (backup_conversation restoreStore (strOf "/d") destState ts0).2
        (strOf "/d") srcState ts0).2.length =
      (backup_conversation restoreStore (strOf "/d") destState ts0).2.length := by
  refine ⟨?_, ?_, ?_⟩
  · decide
  · decide
  · decide

/-- C2 (amended): `backup_conversation` writes the record under the derived
key `<path>.backup.<timestamp>`; that key is never the live path, the live
entry is untouched, a fresh derived key appends exactly one new entry and
overwrites nothing, and backups of the same path at distinct bounded
timestamps derive distinct keys — only a second backup within the same
second can overwrite (a previous backup of that path). -/
theorem c2_backup_non_clobbering (store : Store) (path : Str)
    (st : ConversationState) (ts : Ts) :
    (backup_conversation store path st ts).1 = backupKeyOf path ts ∧
    backupKeyOf path ts ≠ path ∧
    getRaw (backup_conversation store path st ts).2 path = getRaw store path ∧
    getRaw (backup_conversation store path st ts).2 (backupKeyOf path ts) =
      some (encState st) ∧
    (hasKey store (backupKeyOf path ts) = false →
      (backup_conversation store path st ts).2 =
        store ++ [(backupKeyOf path ts, encState st)]) ∧
    (∀ ts2 : Ts, ts.Bounded → ts2.Bounded → ts ≠ ts2 →
      backupKeyOf path ts ≠ backupKeyOf path ts2) := by
  refine ⟨rfl, backupKeyOf_ne_path path ts, ?_, ?_, ?_, ?_⟩
  · exact getRaw_setRaw_ne store (backupKeyOf path ts) path (encState st)
      (fun hc => backupKeyOf_ne_path path ts hc.symm)
  · exact getRaw_setRaw_same store (backupKeyOf path ts) (encState st)
  · intro hfresh
    exact setRaw_of_fresh store (backupKeyOf path ts) (encState st) hfresh
  · intro ts2 hb1 hb2 hneq hk
    exact hneq (backupKeyOf_inj_ts hb1 hb2 hk)

/-- C2 witness: a fresh-key backup appends exactly one entry, and the keys
for two distinct seconds differ. -/
theorem c2_backup_non_clobbering_witness :
    (backup_conversation restoreStore (strOf "/p") destState ts0).2 =
      restoreStore ++ [(backupKeyOf (strOf "/p") ts0, encState destState)] ∧
    backupKeyOf (strOf "/p") ts0 ≠ backupKeyOf (strOf "/p") ts1 := by
  constructor
  · exact (c2_backup_non_clobbering restoreStore (strOf "/p") destState ts0).2.2.2.2.1
      (by decide)
  · exact (c2_backup_non_clobbering restoreStore (strOf "/p") destState ts0).2.2.2.2.2
      ts1 (by unfold Ts.Bounded; decide) (by unfold Ts.Bounded; decide) (by decide)

/-- C1 counterexample: a conflicted restore whose derived backup key already
exists in the store (a backup taken the same second) overwrites that entry
instead of creating a new one — the store keeps its size, so "exactly one
new backup entry" fails even though the fragment resolves, the destination
holds a live entry and the backup key is surfaced. -/
theorem c1_restore_backup_counterexample :
    get_conversation_by_id collisionStore (strOf "c") = some (strOf "/s", srcState) ∧
    getConvByPath collisionStore (strOf "/d") = some (some destState) ∧
    (restore_conversation collisionStore (strOf "c") (strOf "/d") ts0).map
        (fun r => (r.1.length, r.2)) =
      some (collisionStore.length, some (backupKeyOf (strOf "/d") ts0)) ∧
    collisionStore.length = 3 := by
  refine ⟨?_, ?_, ?_, ?_⟩
  · decide
  · decide
  · decide
  · decide

/-- C1 (amended): when the identifier fragment resolves and a decodable live
entry occupies the destination, restore performs exactly one backup write
under the derived key (distinct from the destination), surfaces that key,
and then overwrites the destination with the resolved record; the backup is
a new entry — growing the store by exactly one — whenever no entry already
sits at the derived key (a same-second backup would be overwritten
instead).  When no entry occupies the destination, no backup happens and
the destination is simply set to the resolved record. -/
theorem c1_restore_backup (store : Store) (frag dest : Str) (ts : Ts)
    (origPath : Str) (st : ConversationState)
    (hres : get_conversation_by_id store frag = some (origPath, st)) :
    (∀ stOld : ConversationState, getConvByPath store dest = some (some stOld) →
      restore_conversation store frag dest ts =
        some (setConvByPath (setConvByPath store (backupKeyOf dest ts) stOld) dest st,
          some (backupKeyOf dest ts)) ∧
      backupKeyOf dest ts ≠ dest ∧
      getRaw (setConvByPath (setConvByPath store (backupKeyOf dest ts) stOld) dest st)
        dest = some (encState st) ∧
      getRaw (setConvByPath (setConvByPath store (backupKeyOf dest ts) stOld) dest st)
        (backupKeyOf dest ts) = some (encState stOld) ∧
      (hasKey store (backupKeyOf dest ts) = false →
        (setConvByPath (setConvByPath store (backupKeyOf dest ts) stOld) dest st).length =
          store.length + 1)) ∧
    (getConvByPath store dest = some none →
      restore_conversation store frag dest ts = some (setConvByPath store dest st, none) ∧
      getRaw (setConvByPath store dest st) dest = some (encState st)) := by
  constructor
  · intro stOld hdest
    have hdne : dest ≠ backupKeyOf dest ts :=
      fun hc => backupKeyOf_ne_path dest ts hc.symm
    refine ⟨?_, backupKeyOf_ne_path dest ts, ?_, ?_, ?_⟩
    · simp only [restore_conversation, hres, hdest, backup_conversation]
    · exact getRaw_setRaw_same _ dest (encState st)
    · rw [setConvByPath, getRaw_setRaw_ne _ dest (backupKeyOf dest ts) (encState st) hdne.symm]
      exact getRaw_setRaw_same store (backupKeyOf dest ts) (encState stOld)
    · intro hfresh
      have hdest2 : hasKey store dest = true := by
        rw [hasKey_eq_isSome]
        unfold getConvByPath at hdest
        cases hg : getRaw store dest with
        | none => rw [hg] at hdest; cases hdest
        | some v => simp [hg]
      have h1 : (setConvByPath store (backupKeyOf dest ts) stOld).length =
          store.length + 1 :=
        length_setRaw_of_fresh store (backupKeyOf dest ts) (encState stOld) hfresh
      have h2 : hasKey (setConvByPath store (backupKeyOf dest ts) stOld) dest = true := by
        rw [setConvByPath, hasKey_setRaw_ne store (backupKeyOf dest ts) dest
          (encState stOld) hdne]
        exact hdest2
      rw [setConvByPath, length_setRaw_of_hasKey _ dest (encState st) h2]
      exact h1
  · intro hdest
    refine ⟨?_, getRaw_setRaw_same store dest (encState st)⟩
    simp only [restore_conversation, hres, hdest]

/-- C1 witness: an ordinary conflicted restore on a store with no key
collision backs up once, grows the store by one entry, and replaces the
live destination entry. -/
theorem c1_restore_backup_witness :
    restore_conversation restoreStore (strOf "c") (strOf "/d") ts0 =
      some (setConvByPath (setConvByPath restoreStore (backupKeyOf (strOf "/d") ts0) destState)
          (strOf "/d") srcState,
        some (backupKeyOf (strOf "/d") ts0)) ∧
    (setConvByPath (setConvByPath restoreStore (backupKeyOf (strOf "/d") ts0) destState)
        (strOf "/d") srcState).length = restoreStore.length + 1 := by
  have h := (c1_restore_backup restoreStore (strOf "c") (strOf "/d") ts0 (strOf "/s") srcState
    (by decide)).1 destState (by decide)
  exact ⟨h.1, h.2.2.2.2 (by decide)⟩

/-- C3 counterexample: a store with one matching entry and `limit = 0`
yields one summary, not zero — the limit check in the scan runs only after
a push, so a zero limit cannot stop the first matching entry. -/
theorem c3_list_limit_counterexample :
    (list_conversations sampleIdStore 0 0 none none).map List.length = some 1 ∧
    (1 : Nat) ≠ 0 := by
  constructor
  · decide
  · decide

/-- C3 (amended): list honors its limit except at zero.  Whenever the scan
succeeds, the number of returned summaries is exactly
`min n (max limit 1)`, where `n` counts the entries passing the path and
content filters and both decode stages.  For `limit ≥ 1` this is the
spec's `min n limit` — 5 requested of 10 matching gives 5, 20 of 10 gives
10 — but `limit = 0` behaves like `limit = 1`, returning one summary when
anything matches. -/
theorem c3_list_limit (store : Store) (now limit : Nat)
    (pf cf : Option Str) (res : List ConversationSummary)
    (h : list_conversations store now limit pf cf = some res) :
    res.length = min (countMatching pf cf store) (max limit 1) ∧
    (list_conversations tenStore 0 5 none none).map List.length = some 5 ∧
    (list_conversations tenStore 0 20 none none).map List.length = some 10 ∧
    (list_conversations tenStore 0 0 none none).map List.length = some 1 := by
  refine ⟨?_, by decide, by decide, by decide⟩
  have h2 := listLoop_length now limit pf cf (sortBy entryDesc store) [] res h
  simp only [List.length_nil, Nat.zero_add] at h2
  rw [h2]
  simp only [countMatching]
  rw [sortBy_countP]

/-- C3 witness: the amended limit formula evaluated at the one-entry store
with `limit = 0`. -/
theorem c3_list_limit_witness :
    ([mkSummary 0 (strOf "/p/a") sampleIdState (strOf "hi there")] :
      List ConversationSummary).length =
      min (countMatching none none sampleIdStore) (max 0 1) :=
  (c3_list_limit sampleIdStore 0 0 none none
    [mkSummary 0 (strOf "/p/a") sampleIdState (strOf "hi there")] (by decide)).1

/-- C5: ordering asymmetry between the two batch queries — whenever they
succeed, `list_conversations` returns summaries sorted by path in
descending lexicographic order while `search_conversations` returns them
sorted ascending. -/
theorem c5_ordering_asymmetry (store : Store) (now limit : Nat)
    (pf cf : Option Str) (q : Str) (res1 res2 : List ConversationSummary) :
    (list_conversations store now limit pf cf = some res1 →
      res1.Pairwise (fun a b => lexLe b.path a.path = true)) ∧
    (search_conversations store now q limit = some res2 →
      res2.Pairwise (fun a b => lexLe a.path b.path = true)) := by
  constructor
  · intro h
    apply listLoop_sorted now limit pf cf (sortBy entryDesc store) [] res1 ?_ ?_ ?_ h
    · exact sortBy_pairwise entryDesc_total entryDesc_trans store
    · exact List.Pairwise.nil
    · intro s hs e2 he2
      cases hs
  · intro h
    unfold search_conversations at h
    cases hsl : searchLoop now limit (toLowerStr q) store [] with
    | none => rw [hsl] at h; cases h
    | some r =>
      rw [hsl] at h
      injection h with h2
      subst h2
      exact sortBy_pairwise summaryAsc_total summaryAsc_trans r

/-- C5 witness: the sortedness facts at the one-entry store, for list and
for a search matching its transcript. -/
theorem c5_ordering_asymmetry_witness :
    ([mkSummary 0 (strOf "/p/a") sampleIdState (strOf "hi there")] :
      List ConversationSummary).Pairwise (fun a b => lexLe b.path a.path = true) ∧
    ([mkSummary 0 (strOf "/p/a") sampleIdState (strOf "...hello!...")] :
      List ConversationSummary).Pairwise (fun a b => lexLe a.path b.path = true) :=
  ⟨(c5_ordering_asymmetry sampleIdStore 0 10 none none (strOf "hello")
      [mkSummary 0 (strOf "/p/a") sampleIdState (strOf "hi there")]
      [mkSummary 0 (strOf "/p/a") sampleIdState (strOf "...hello!...")]).1 (by decide),
   (c5_ordering_asymmetry sampleIdStore 0 10 none none (strOf "hello")
      [mkSummary 0 (strOf "/p/a") sampleIdState (strOf "hi there")]
      [mkSummary 0 (strOf "/p/a") sampleIdState (strOf "...hello!...")]).2 (by decide)⟩

/-- C6: per-entry decode failures are non-fatal and invisible to batch
scans — on every store, list and search return exactly what they return on
the store with all undecodable entries removed; a failing entry is skipped,
never aborts the scan, and never counts against the limit. -/
theorem c6_decode_failures_skipped (store : Store) (now limit : Nat)
    (pf cf : Option Str) (q : Str) :
    list_conversations store now limit pf cf =
      list_conversations (store.filter (fun e => (decodeValue e.2).isSome))
        now limit pf cf ∧
    search_conversations store now q limit =
      search_conversations (store.filter (fun e => (decodeValue e.2).isSome))
        now q limit := by
  constructor
  · unfold list_conversations
    rw [listLoop_filter_decodable, filter_sortBy entryDesc_total entryDesc_trans]
  · unfold search_conversations
    rw [searchLoop_filter_decodable]
